import Mathlib

/-!
Shallow embedding of the character co-occurrence extractor shown in
`src/chc5904.py` (the code listing rendered by the Streamlit report,
lines 177-234).  The extractor splits a text into sentences on the
terminal punctuation class `[。！？]`, tokenizes each sentence with an
external word segmenter (`jieba.lcut`, modelled here as an arbitrary
function `tok : String → List String`), detects which registered
characters are present in the sentence by membership of an alias in the
token list, records each unordered pair of distinct present characters
once per sentence, and aggregates the pairs with a `Counter`.

Python's `set` iteration order is not fixed by the semantics (string
hashing is randomized per process), so the order in which a sentence's
pair set is appended to the running `interactions` list is modelled by
an explicit parameter `ord`, constrained to be a permutation.
-/

/-- Lexicographic comparison of char lists by code point, mirroring how
Python compares strings in `sorted([c1, c2])`. -/
def charsLt : List Char → List Char → Bool
  | [], [] => false
  | [], _ :: _ => true
  | _ :: _, [] => false
  | a :: as, b :: bs => if a < b then true else if b < a then false else charsLt as bs

/-- String comparison used to canonicalize a pair, mirroring Python's
`sorted` on two strings. -/
def strLt (a b : String) : Bool := charsLt a.data b.data

/-- The sentence-terminal delimiter class `[。！？]` of `re.split`. -/
def isDelim (c : Char) : Bool := c = '。' || c = '！' || c = '？'

/-- `re.split(r'[。！？]', text)` on the character list of the text:
every delimiter occurrence cuts the text, delimiters are consumed, and
empty pieces (from adjacent delimiters or at the ends) are kept. -/
def splitChars : List Char → List (List Char)
  | [] => [[]]
  | c :: rest =>
    match splitChars rest with
    | [] => [[c]]
    | s :: ss => if isDelim c then [] :: s :: ss else (c :: s) :: ss

/-- `sentences = re.split(r'[。！？]', text)`. -/
def split_sentences (text : String) : List String :=
  (splitChars text.data).map (fun cs => String.mk cs)

/-- Interleaves the split pieces with the consumed delimiters: used to
state that splitting is non-overlapping, order preserving, and consumes
exactly the delimiter occurrences. -/
def interleave : List (List Char) → List Char → List Char
  | [], _ => []
  | s :: _, [] => s
  | s :: ss, d :: ds => s ++ d :: interleave ss ds

/-- A character registry: canonical name paired with its alias list, in
dictionary insertion order (`character_variations` in the source). -/
abbrev Registry := List (String × List String)

/-- `find_characters_in_window(window)`: a character is present when any
of its alias strings is an element of the token-list window (Python's
`variation in window` with `window` a list of tokens). -/
def find_characters_in_window (registry : Registry) (window : List String) : List String :=
  (registry.filter (fun cv => cv.2.any (fun v => decide (v ∈ window)))).map Prod.fst

/-- `tuple(sorted([c1, c2]))`: the canonical (sorted) form of a pair. -/
def sorted_pair (a b : String) : String × String :=
  if strLt a b then (a, b) else (b, a)

/-- `sorted_pairs.add(p)`: adding to a Python set, modelled on a
duplicate-free list that remembers insertion order. -/
def addPair (acc : List (String × String)) (p : String × String) : List (String × String) :=
  if p ∈ acc then acc else acc ++ [p]

/-- The inner `for character2 in present_characters` loop of the source:
for each `c2` of the window's present set, if `c1 ≠ c2` the canonical
pair is added to the set. -/
def innerLoop (c1 : String) (acc : List (String × String)) :
    List String → List (String × String)
  | [] => acc
  | c2 :: rest => innerLoop c1 (if c1 ≠ c2 then addPair acc (sorted_pair c1 c2) else acc) rest

/-- The outer `for character1 in present_characters` loop of the source;
`inner` is the same present set, fully re-iterated by the inner loop. -/
def outerLoop (inner : List String) (acc : List (String × String)) :
    List String → List (String × String)
  | [] => acc
  | c1 :: rest => outerLoop inner (innerLoop c1 acc inner) rest

/-- The double loop of the source that builds the per-sentence set
`sorted_pairs` of canonicalized pairs of distinct present characters. -/
def sorted_pairs (present : List String) : List (String × String) :=
  outerLoop present [] present

/-- One iteration of `for sentence in sentences`: tokenize, detect the
present characters, and if more than one is present produce the
sentence's pair set (otherwise nothing). -/
def sentence_interactions (registry : Registry) (tok : String → List String) (s : String) :
    List (String × String) :=
  let tokens := tok s
  let present := find_characters_in_window registry tokens
  if 1 < present.length then sorted_pairs present else []

/-- `interactions.extend(sorted_pairs)` over the sentence list: each
sentence's pair set is appended in the iteration order `ord` of the
Python set (an arbitrary permutation of the set's elements). -/
def interactionsOfSents (ord : List (String × String) → List (String × String))
    (registry : Registry) (tok : String → List String) : List String → List (String × String)
  | [] => []
  | s :: rest =>
    ord (sentence_interactions registry tok s) ++ interactionsOfSents ord registry tok rest

/-- The full `interactions` list built from a text. -/
def interactions (ord : List (String × String) → List (String × String))
    (registry : Registry) (tok : String → List String) (text : String) :
    List (String × String) :=
  interactionsOfSents ord registry tok (split_sentences text)

/-- First occurrences of the elements of `l`, in order, skipping those
already in `seen` (helper for the `Counter` key order). -/
def firstKeysAux (seen : List (String × String)) : List (String × String) → List (String × String)
  | [] => []
  | a :: l => if a ∈ seen then firstKeysAux seen l else a :: firstKeysAux (a :: seen) l

/-- The keys of `Counter(interactions)` in insertion order (a Python
`Counter` is a dict keyed by first occurrence). -/
def firstKeys (l : List (String × String)) : List (String × String) := firstKeysAux [] l

/-- `Counter(interactions)` as an association list in key-insertion
order: each pair with the number of times it occurs in `interactions`. -/
def interaction_counts (l : List (String × String)) : List ((String × String) × Nat) :=
  (firstKeys l).map (fun p => (p, l.count p))

/-- Total weight of an interaction table (sum of the Weight column). -/
def totalWeight (table : List ((String × String) × Nat)) : Nat :=
  (table.map Prod.snd).sum

/-- Boolean presence judgment of character `c` in sentence `s`. -/
def presentB (registry : Registry) (tok : String → List String) (c : String) (s : String) :
    Bool :=
  decide (c ∈ find_characters_in_window registry (tok s))

/-- Number of sentences of `text` in which both `a` and `b` are judged
present (the spec's "number of sentences in which both were judged
present"). -/
def sentencesBothPresent (registry : Registry) (tok : String → List String) (text : String)
    (a b : String) : Nat :=
  (split_sentences text).countP (fun s => presentB registry tok a s && presentB registry tok b s)

/-- All ordered pairs over a key list (helper for the spec-side count of
unordered co-occurring pairs). -/
def allPairs (ks : List String) : List (String × String) :=
  (ks.map (fun a => ks.map (fun b => (a, b)))).flatten

/-- Spec-side count of unordered pairs of distinct registered characters
jointly present in sentence `s`: pairs `(a, b)` of registry keys with
`a` before `b` in canonical order and both judged present. -/
def sentencePairCount (registry : Registry) (tok : String → List String) (s : String) : Nat :=
  ((allPairs (registry.map Prod.fst)).filter
    (fun p => strLt p.1 p.2 && presentB registry tok p.1 s && presentB registry tok p.2 s)).length

/-- Spec-side total number of (sentence, unordered-pair) co-occurrences
over a sentence list. -/
def coOccTotal (registry : Registry) (tok : String → List String) : List String → Nat
  | [] => 0
  | s :: rest => sentencePairCount registry tok s + coOccTotal registry tok rest

/-- Modelled from the spec: the alternative alias-detection mode the
spec describes ("raw substring containment against the raw window
text"); `substrB p l` decides whether `p` occurs as a contiguous
substring of `l`. -/
def substrB (p : List Char) : List Char → Bool
  | [] => p.isEmpty
  | c :: rest => p.isPrefixOf (c :: rest) || substrB p rest

/-- The raw window text: the concatenation of the window's tokens (for
a partitioning tokenizer such as `jieba.lcut` this is the sentence). -/
def window_text (window : List String) : List Char :=
  (window.map String.data).flatten

/-- Modelled from the spec: alias detection by raw substring containment
over the raw window text, the second detection mode named by the spec. -/
def find_characters_in_raw (registry : Registry) (raw : List Char) : List String :=
  (registry.filter (fun cv => cv.2.any (fun v => substrB v.data raw))).map Prod.fst

/-- A registry entry with its empty aliases removed (helper to state
that empty aliases never contribute a match). -/
def strip_empty (registry : Registry) : Registry :=
  registry.map (fun cv => (cv.1, cv.2.filter (fun v => !(v == ""))))

/-- A concrete single-character tokenizer used for witnesses. -/
def tokChars (s : String) : List String := s.data.map (fun c => String.mk [c])

/-- A concrete three-character registry used for witnesses. -/
def regABC : Registry := [("a", ["a"]), ("b", ["b"]), ("c", ["c"])]

/-- A concrete registry with an empty alias, used for witnesses. -/
def regE : Registry := [("a", ["", "a"]), ("b", ["b"])]

/-- A concrete one-entry registry whose alias is a proper substring of a
token, used to separate the two detection modes. -/
def regAB : Registry := [("ab", ["ab"])]

/-! ### Order properties of the canonicalizing comparison -/

theorem charsLt_irrefl (l : List Char) : charsLt l l = false := by
  induction l with
  | nil => rfl
  | cons a as ih => simp [charsLt, lt_irrefl, ih]

theorem charsLt_asymm : ∀ {l1 l2 : List Char}, charsLt l1 l2 = true → charsLt l2 l1 = false
  | [], [], h => by simp [charsLt] at h
  | [], _ :: _, _ => rfl
  | _ :: _, [], h => by simp [charsLt] at h
  | a :: as, b :: bs, h => by
    by_cases hab : a < b
    · simp [charsLt, hab, lt_asymm hab]
    · by_cases hba : b < a
      · simp [charsLt, hab, hba] at h
      · simp only [charsLt, if_neg hab, if_neg hba] at h
        simp only [charsLt, if_neg hba, if_neg hab]
        exact charsLt_asymm h

theorem charsLt_eq_of_not :
    ∀ {l1 l2 : List Char}, charsLt l1 l2 = false → charsLt l2 l1 = false → l1 = l2
  | [], [], _, _ => rfl
  | [], _ :: _, h1, _ => by simp [charsLt] at h1
  | _ :: _, [], _, h2 => by simp [charsLt] at h2
  | a :: as, b :: bs, h1, h2 => by
    by_cases hab : a < b
    · simp [charsLt, hab] at h1
    · by_cases hba : b < a
      · simp [charsLt, hba] at h2
      · have ha : a = b := le_antisymm (le_of_not_lt hba) (le_of_not_lt hab)
        subst ha
        simp only [charsLt, if_neg hab, if_neg hba] at h1 h2
        exact congrArg (a :: ·) (charsLt_eq_of_not h1 h2)

theorem strLt_irrefl (a : String) : strLt a a = false := charsLt_irrefl a.data

theorem strLt_asymm {a b : String} (h : strLt a b = true) : strLt b a = false :=
  charsLt_asymm h

theorem strLt_eq_of_not {a b : String} (h1 : strLt a b = false) (h2 : strLt b a = false) :
    a = b := by
  cases a with
  | mk da => cases b with
    | mk db => exact congrArg String.mk (charsLt_eq_of_not h1 h2)

theorem ne_of_strLt {a b : String} (h : strLt a b = true) : a ≠ b := by
  intro heq
  subst heq
  rw [strLt_irrefl] at h
  cases h

theorem strLt_or {a b : String} (hne : a ≠ b) : strLt a b = true ∨ strLt b a = true := by
  by_cases h1 : strLt a b = true
  · exact Or.inl h1
  · by_cases h2 : strLt b a = true
    · exact Or.inr h2
    · exact absurd (strLt_eq_of_not (Bool.eq_false_iff.mpr h1) (Bool.eq_false_iff.mpr h2)) hne

/-! ### Membership and duplicate-freeness of the pair set -/

theorem mem_addPair {acc : List (String × String)} {p q : String × String} :
    q ∈ addPair acc p ↔ q ∈ acc ∨ q = p := by
  unfold addPair
  by_cases hp : p ∈ acc
  · simp only [if_pos hp]
    constructor
    · exact Or.inl
    · rintro (h | rfl)
      · exact h
      · exact hp
  · simp [if_neg hp]

theorem nodup_addPair {acc : List (String × String)} {p : String × String}
    (h : acc.Nodup) : (addPair acc p).Nodup := by
  unfold addPair
  by_cases hp : p ∈ acc
  · simpa [if_pos hp] using h
  · simpa [if_neg hp, List.nodup_append] using ⟨h, hp⟩

theorem mem_innerLoop {c1 : String} :
    ∀ {xs : List String} {acc : List (String × String)} {q : String × String},
      q ∈ innerLoop c1 acc xs ↔
        q ∈ acc ∨ ∃ c2, c2 ∈ xs ∧ c1 ≠ c2 ∧ q = sorted_pair c1 c2
  | [], acc, q => by simp [innerLoop]
  | c2 :: rest, acc, q => by
    rw [innerLoop, mem_innerLoop]
    by_cases hc : c1 = c2
    · subst hc
      simp only [ne_eq, not_true_eq_false, if_neg, ite_false, not_not]
      constructor
      · rintro (h | h)
        · exact Or.inl h
        · right
          obtain ⟨d, hd, hne, hq⟩ := h
          exact ⟨d, List.mem_cons_of_mem _ hd, hne, hq⟩
      · rintro (h | ⟨d, hd, hne, hq⟩)
        · exact Or.inl h
        · rcases List.mem_cons.mp hd with rfl | hd2
          · exact absurd rfl hne
          · exact Or.inr ⟨d, hd2, hne, hq⟩
    · simp only [if_pos hc, mem_addPair]
      constructor
      · rintro ((h | rfl) | ⟨d, hd, hne, hq⟩)
        · exact Or.inl h
        · exact Or.inr ⟨c2, List.mem_cons_self _ _, hc, rfl⟩
        · exact Or.inr ⟨d, List.mem_cons_of_mem _ hd, hne, hq⟩
      · rintro (h | ⟨d, hd, hne, hq⟩)
        · exact Or.inl (Or.inl h)
        · rcases List.mem_cons.mp hd with rfl | hd2
          · exact Or.inl (Or.inr hq)
          · exact Or.inr ⟨d, hd2, hne, hq⟩

theorem nodup_innerLoop {c1 : String} :
    ∀ {xs : List String} {acc : List (String × String)},
      acc.Nodup → (innerLoop c1 acc xs).Nodup
  | [], acc, h => h
  | c2 :: rest, acc, h => by
    rw [innerLoop]
    apply nodup_innerLoop
    by_cases hc : c1 ≠ c2
    · simpa [if_pos hc] using nodup_addPair h
    · simpa [if_neg hc] using h

theorem mem_outerLoop {inner : List String} :
    ∀ {ys : List String} {acc : List (String × String)} {q : String × String},
      q ∈ outerLoop inner acc ys ↔
        q ∈ acc ∨ ∃ c1, c1 ∈ ys ∧ ∃ c2, c2 ∈ inner ∧ c1 ≠ c2 ∧ q = sorted_pair c1 c2
  | [], acc, q => by simp [outerLoop]
  | c1 :: rest, acc, q => by
    rw [outerLoop, mem_outerLoop, mem_innerLoop]
    constructor
    · rintro ((h | ⟨c2, hc2, hne, hq⟩) | ⟨d, hd, hrest⟩)
      · exact Or.inl h
      · exact Or.inr ⟨c1, List.mem_cons_self _ _, c2, hc2, hne, hq⟩
      · exact Or.inr ⟨d, List.mem_cons_of_mem _ hd, hrest⟩
    · rintro (h | ⟨d, hd, hrest⟩)
      · exact Or.inl (Or.inl h)
      · rcases List.mem_cons.mp hd with rfl | hd2
        · exact Or.inl (Or.inr hrest)
        · exact Or.inr ⟨d, hd2, hrest⟩

theorem nodup_outerLoop {inner : List String} :
    ∀ {ys : List String} {acc : List (String × String)},
      acc.Nodup → (outerLoop inner acc ys).Nodup
  | [], _, h => h
  | c1 :: rest, acc, h => by
    rw [outerLoop]
    exact nodup_outerLoop (nodup_innerLoop h)

theorem mem_sorted_pairs {present : List String} {q : String × String} :
    q ∈ sorted_pairs present ↔
      q.1 ∈ present ∧ q.2 ∈ present ∧ strLt q.1 q.2 = true := by
  rw [sorted_pairs, mem_outerLoop]
  constructor
  · rintro (h | ⟨c1, hc1, c2, hc2, hne, rfl⟩)
    · cases h
    · unfold sorted_pair
      rcases strLt_or hne with hlt | hlt
      · simp only [if_pos hlt]
        exact ⟨hc1, hc2, hlt⟩
      · rw [if_neg (by simp [strLt_asymm hlt])]
        exact ⟨hc2, hc1, hlt⟩
  · rintro ⟨h1, h2, hlt⟩
    right
    refine ⟨q.1, h1, q.2, h2, ne_of_strLt hlt, ?_⟩
    rw [sorted_pair, if_pos hlt]

theorem nodup_sorted_pairs (present : List String) : (sorted_pairs present).Nodup :=
  nodup_outerLoop List.nodup_nil

theorem countPair_eq_of_perm {l1 l2 : List (String × String)} (h : l1.Perm l2)
    (p : String × String) : l1.count p = l2.count p :=
  h.countP_eq _

theorem countPair_eq_one {l : List (String × String)} {p : String × String}
    (hn : l.Nodup) (hm : p ∈ l) : l.count p = 1 := by
  induction l with
  | nil => cases hm
  | cons a l ih =>
    obtain ⟨ha, hn2⟩ := List.nodup_cons.mp hn
    rcases List.mem_cons.mp hm with rfl | hm2
    · rw [List.count_cons_self, List.count_eq_zero.mpr ha]
    · rw [List.count_cons_of_ne (fun he => ha (by rwa [he] at hm2)) l]
      exact ih hn2 hm2

theorem count_sorted_pairs (present : List String) (q : String × String) :
    (sorted_pairs present).count q =
      if q.1 ∈ present ∧ q.2 ∈ present ∧ strLt q.1 q.2 = true then 1 else 0 := by
  by_cases h : q.1 ∈ present ∧ q.2 ∈ present ∧ strLt q.1 q.2 = true
  · rw [if_pos h]
    exact countPair_eq_one (nodup_sorted_pairs present) (mem_sorted_pairs.mpr h)
  · rw [if_neg h]
    exact List.count_eq_zero.mpr (fun hm => h (mem_sorted_pairs.mp hm))

/-! ### Presence detection -/

theorem mem_find_characters {registry : Registry} {window : List String} {c : String} :
    c ∈ find_characters_in_window registry window ↔
      ∃ vars, (c, vars) ∈ registry ∧ ∃ v, v ∈ vars ∧ v ∈ window := by
  unfold find_characters_in_window
  simp only [List.mem_map, List.mem_filter, List.any_eq_true, decide_eq_true_eq]
  constructor
  · rintro ⟨⟨d, vars⟩, ⟨hmem, v, hv, hvw⟩, rfl⟩
    exact ⟨vars, hmem, v, hv, hvw⟩
  · rintro ⟨vars, hmem, v, hv, hvw⟩
    exact ⟨(c, vars), ⟨hmem, v, hv, hvw⟩, rfl⟩

theorem find_characters_subset_keys {registry : Registry} {window : List String} {c : String}
    (h : c ∈ find_characters_in_window registry window) : c ∈ registry.map Prod.fst := by
  obtain ⟨vars, hmem, _⟩ := mem_find_characters.mp h
  exact List.mem_map.mpr ⟨(c, vars), hmem, rfl⟩

theorem nodup_find_characters {registry : Registry} {window : List String}
    (hkeys : (registry.map Prod.fst).Nodup) :
    (find_characters_in_window registry window).Nodup :=
  List.Nodup.sublist (List.Sublist.map Prod.fst (List.filter_sublist registry)) hkeys

theorem presentB_iff {registry : Registry} {tok : String → List String} {c s : String} :
    presentB registry tok c s = true ↔ c ∈ find_characters_in_window registry (tok s) :=
  decide_eq_true_iff

/-! ### Counting interactions -/

theorem one_lt_length_of_two_mem {l : List String} {a b : String} (ha : a ∈ l) (hb : b ∈ l)
    (hne : a ≠ b) : 1 < l.length := by
  cases l with
  | nil => cases ha
  | cons x xs =>
    cases xs with
    | nil =>
      rw [List.mem_singleton] at ha hb
      exact absurd (ha.trans hb.symm) hne
    | cons y ys =>
      simp only [List.length_cons]
      omega

theorem count_sentence_interactions (registry : Registry) (tok : String → List String)
    (s : String) (q : String × String) :
    (sentence_interactions registry tok s).count q =
      if presentB registry tok q.1 s && presentB registry tok q.2 s && strLt q.1 q.2 then 1
      else 0 := by
  have hcond :
      (presentB registry tok q.1 s && presentB registry tok q.2 s && strLt q.1 q.2) = true ↔
        q.1 ∈ find_characters_in_window registry (tok s) ∧
          q.2 ∈ find_characters_in_window registry (tok s) ∧ strLt q.1 q.2 = true := by
    simp only [Bool.and_eq_true, presentB_iff, and_assoc]
  unfold sentence_interactions
  by_cases hg : 1 < (find_characters_in_window registry (tok s)).length
  · rw [if_pos hg, count_sorted_pairs, if_congr hcond rfl rfl]
  · rw [if_neg hg, List.count_nil, if_neg]
    intro hc
    obtain ⟨h1, h2, hlt⟩ := hcond.mp hc
    exact hg (one_lt_length_of_two_mem h1 h2 (ne_of_strLt hlt))

theorem count_interactionsOfSents (ord : List (String × String) → List (String × String))
    (hord : ∀ l, (ord l).Perm l) (registry : Registry) (tok : String → List String) :
    ∀ (sents : List String) (q : String × String),
      (interactionsOfSents ord registry tok sents).count q =
        sents.countP
          (fun s => presentB registry tok q.1 s && presentB registry tok q.2 s && strLt q.1 q.2)
  | [], _ => rfl
  | s :: rest, q => by
    rw [interactionsOfSents, List.count_append, countPair_eq_of_perm (hord _),
      count_sentence_interactions, List.countP_cons,
      count_interactionsOfSents ord hord registry tok rest q, Nat.add_comm]

/-! ### The Counter layer -/

theorem mem_firstKeysAux :
    ∀ {l seen : List (String × String)} {x : String × String},
      x ∈ firstKeysAux seen l ↔ x ∈ l ∧ x ∉ seen
  | [], seen, x => by simp [firstKeysAux]
  | a :: l, seen, x => by
    rw [firstKeysAux]
    by_cases ha : a ∈ seen
    · rw [if_pos ha, mem_firstKeysAux]
      constructor
      · rintro ⟨h1, h2⟩
        exact ⟨List.mem_cons_of_mem _ h1, h2⟩
      · rintro ⟨h1, h2⟩
        rcases List.mem_cons.mp h1 with rfl | h3
        · exact absurd ha h2
        · exact ⟨h3, h2⟩
    · rw [if_neg ha, List.mem_cons, mem_firstKeysAux]
      constructor
      · rintro (rfl | ⟨h1, h2⟩)
        · exact ⟨List.mem_cons_self _ _, ha⟩
        · refine ⟨List.mem_cons_of_mem _ h1, fun hs => h2 (List.mem_cons_of_mem _ hs)⟩
      · rintro ⟨h1, h2⟩
        by_cases hx : x = a
        · exact Or.inl hx
        · rcases List.mem_cons.mp h1 with rfl | h3
          · exact absurd rfl hx
          · refine Or.inr ⟨h3, fun hs => ?_⟩
            rcases List.mem_cons.mp hs with rfl | h4
            · exact hx rfl
            · exact h2 h4

theorem mem_firstKeys {l : List (String × String)} {x : String × String} :
    x ∈ firstKeys l ↔ x ∈ l := by
  rw [firstKeys, mem_firstKeysAux]
  simp

theorem nodup_firstKeysAux :
    ∀ {l seen : List (String × String)}, (firstKeysAux seen l).Nodup
  | [], _ => List.nodup_nil
  | a :: l, seen => by
    rw [firstKeysAux]
    by_cases ha : a ∈ seen
    · rw [if_pos ha]
      exact nodup_firstKeysAux
    · rw [if_neg ha, List.nodup_cons]
      refine ⟨fun hm => ?_, nodup_firstKeysAux⟩
      exact (mem_firstKeysAux.mp hm).2 (List.mem_cons_self _ _)

theorem nodup_firstKeys (l : List (String × String)) : (firstKeys l).Nodup :=
  nodup_firstKeysAux

theorem mem_interaction_counts {l : List (String × String)} {p : String × String} {w : Nat} :
    (p, w) ∈ interaction_counts l ↔ p ∈ l ∧ w = l.count p := by
  unfold interaction_counts
  simp only [List.mem_map, Prod.mk.injEq]
  constructor
  · rintro ⟨k, hk, rfl, rfl⟩
    exact ⟨mem_firstKeys.mp hk, rfl⟩
  · rintro ⟨hp, rfl⟩
    exact ⟨p, mem_firstKeys.mpr hp, rfl, rfl⟩

theorem countPair_filter_ne {l : List (String × String)} {x k : String × String}
    (hxk : x ≠ k) : (l.filter (fun y => !(y == k))).count x = l.count x := by
  induction l with
  | nil => rfl
  | cons a l ih =>
    by_cases hak : a = k
    · subst hak
      rw [List.filter_cons_of_neg (by simp), List.count_cons_of_ne hxk]
      exact ih
    · rw [List.filter_cons_of_pos (by simp [hak]), List.count_cons, List.count_cons, ih]

theorem sum_counts_of_cover :
    ∀ (K l : List (String × String)), K.Nodup → (∀ x, x ∈ K ↔ x ∈ l) →
      (K.map (fun p => l.count p)).sum = l.length
  | [], l, _, hmem => by
    have hnil : l = [] :=
      List.eq_nil_iff_forall_not_mem.mpr (fun x hx => by simpa using (hmem x).mpr hx)
    subst hnil
    rfl
  | k :: K2, l, hnd, hmem => by
    obtain ⟨hkK2, hnd2⟩ := List.nodup_cons.mp hnd
    rw [List.map_cons, List.sum_cons]
    have hcov2 : ∀ x, x ∈ K2 ↔ x ∈ l.filter (fun y => !(y == k)) := by
      intro x
      rw [List.mem_filter]
      constructor
      · intro hx
        have hxk : x ≠ k := fun he => hkK2 (by rwa [he] at hx)
        exact ⟨(hmem x).mp (List.mem_cons_of_mem _ hx), by simp [hxk]⟩
      · rintro ⟨hxl, hx2⟩
        have hxk : x ≠ k := by simpa using hx2
        rcases List.mem_cons.mp ((hmem x).mpr hxl) with rfl | h
        · exact absurd rfl hxk
        · exact h
    have hmap : K2.map (fun p => l.count p)
        = K2.map (fun p => (l.filter (fun y => !(y == k))).count p) :=
      List.map_congr_left
        (fun x hx => (countPair_filter_ne (fun he => hkK2 (by rwa [he] at hx))).symm)
    rw [hmap, sum_counts_of_cover K2 _ hnd2 hcov2, ← List.countP_eq_length_filter,
      List.length_eq_countP_add_countP (fun y => y == k) l]
    have hbridge : l.countP (fun a => !(a == k)) = l.countP (fun a => decide ¬(a == k) = true) :=
      List.countP_congr (fun a _ => by cases h : a == k <;> simp [h])
    rw [hbridge]
    rfl

theorem totalWeight_interaction_counts (l : List (String × String)) :
    totalWeight (interaction_counts l) = l.length := by
  unfold totalWeight interaction_counts
  rw [List.map_map]
  exact sum_counts_of_cover (firstKeys l) l (nodup_firstKeys l) (fun x => mem_firstKeys)

/-! ### Sentence splitting -/

theorem splitChars_ne_nil : ∀ (l : List Char), splitChars l ≠ []
  | [] => by simp [splitChars]
  | c :: rest => by
    rw [splitChars]
    rcases h : splitChars rest with _ | ⟨s, ss⟩
    · simp
    · by_cases hd : isDelim c = true <;> simp [hd]

theorem splitChars_cons_delim {c : Char} {rest : List Char} (hd : isDelim c = true) :
    splitChars (c :: rest) = [] :: splitChars rest := by
  rw [splitChars]
  rcases h : splitChars rest with _ | ⟨s, ss⟩
  · exact absurd h (splitChars_ne_nil rest)
  · show (if isDelim c = true then [] :: s :: ss else (c :: s) :: ss) = [] :: s :: ss
    rw [if_pos hd]

theorem splitChars_cons_head {c : Char} {rest : List Char} (hd : isDelim c = false) :
    ∃ s ss, splitChars rest = s :: ss ∧ splitChars (c :: rest) = (c :: s) :: ss := by
  rcases h : splitChars rest with _ | ⟨s, ss⟩
  · exact absurd h (splitChars_ne_nil rest)
  · refine ⟨s, ss, rfl, ?_⟩
    rw [splitChars, h]
    show (if isDelim c = true then [] :: s :: ss else (c :: s) :: ss) = (c :: s) :: ss
    rw [if_neg (by simp [hd])]

theorem interleave_splitChars : ∀ (l : List Char),
    interleave (splitChars l) (l.filter isDelim) = l
  | [] => rfl
  | c :: rest => by
    by_cases hd : isDelim c = true
    · rw [splitChars_cons_delim hd, List.filter_cons_of_pos hd]
      rcases h : splitChars rest with _ | ⟨s, ss⟩
      · exact absurd h (splitChars_ne_nil rest)
      · show ([] : List Char) ++ c :: interleave (s :: ss) (rest.filter isDelim) = c :: rest
        rw [List.nil_append, ← h, interleave_splitChars rest]
    · have hdf : isDelim c = false := by simpa using hd
      obtain ⟨s, ss, hrest, hcons⟩ := splitChars_cons_head hdf
      have ih := interleave_splitChars rest
      rw [hrest] at ih
      rw [hcons, List.filter_cons_of_neg hd]
      rcases hf : rest.filter isDelim with _ | ⟨d, ds⟩
      · rw [hf] at ih
        show c :: s = c :: rest
        rw [show interleave (s :: ss) [] = s from rfl] at ih
        rw [ih]
      · rw [hf] at ih
        show (c :: s) ++ d :: interleave ss ds = c :: rest
        rw [List.cons_append]
        rw [show s ++ d :: interleave ss ds = interleave (s :: ss) (d :: ds) from rfl, ih]

theorem length_splitChars : ∀ (l : List Char),
    (splitChars l).length = (l.filter isDelim).length + 1
  | [] => rfl
  | c :: rest => by
    by_cases hd : isDelim c = true
    · rw [splitChars_cons_delim hd, List.filter_cons_of_pos hd, List.length_cons,
        List.length_cons, length_splitChars rest]
    · have hdf : isDelim c = false := by simpa using hd
      obtain ⟨s, ss, hrest, hcons⟩ := splitChars_cons_head hdf
      have ih := length_splitChars rest
      rw [hrest] at ih
      rw [hcons, List.filter_cons_of_neg hd, List.length_cons, ← ih, List.length_cons]

theorem splitChars_no_delim : ∀ (l : List Char), ∀ s ∈ splitChars l, ∀ c ∈ s, isDelim c = false
  | [] => by
    intro s hs c hc
    rw [show splitChars [] = [[]] from rfl, List.mem_singleton] at hs
    subst hs
    cases hc
  | d :: rest => by
    intro s hs c hc
    by_cases hd : isDelim d = true
    · rw [splitChars_cons_delim hd] at hs
      rcases List.mem_cons.mp hs with rfl | hs2
      · cases hc
      · exact splitChars_no_delim rest s hs2 c hc
    · have hdf : isDelim d = false := by simpa using hd
      obtain ⟨s0, ss, hrest, hcons⟩ := splitChars_cons_head hdf
      rw [hcons] at hs
      rcases List.mem_cons.mp hs with rfl | hs2
      · rcases List.mem_cons.mp hc with rfl | hc2
        · exact hdf
        · exact splitChars_no_delim rest s0 (by rw [hrest]; exact List.mem_cons_self _ _) c hc2
      · exact splitChars_no_delim rest s (by rw [hrest]; exact List.mem_cons_of_mem _ hs2) c hc

/-! ### The spec-side pair count -/

theorem mem_allPairs {ks : List String} {p : String × String} :
    p ∈ allPairs ks ↔ p.1 ∈ ks ∧ p.2 ∈ ks := by
  unfold allPairs
  simp only [List.mem_flatten, List.mem_map]
  constructor
  · rintro ⟨blk, ⟨a, ha, rfl⟩, hp⟩
    obtain ⟨b, hb, rfl⟩ := List.mem_map.mp hp
    exact ⟨ha, hb⟩
  · rintro ⟨h1, h2⟩
    exact ⟨ks.map (fun b => (p.1, b)), ⟨p.1, h1, rfl⟩, List.mem_map.mpr ⟨p.2, h2, rfl⟩⟩

theorem nodup_allPairs {ks : List String} (h : ks.Nodup) : (allPairs ks).Nodup := by
  unfold allPairs
  rw [List.nodup_flatten]
  constructor
  · intro blk hblk
    obtain ⟨a, _, rfl⟩ := List.mem_map.mp hblk
    refine List.Nodup.map ?_ h
    intro b1 b2 h12
    exact congrArg Prod.snd h12
  · rw [List.pairwise_map]
    refine h.imp ?_
    intro a1 a2 hne x hx1 hx2
    obtain ⟨b1, _, rfl⟩ := List.mem_map.mp hx1
    obtain ⟨b2, _, heq⟩ := List.mem_map.mp hx2
    exact hne (congrArg Prod.fst heq).symm

theorem length_sentence_interactions (registry : Registry) (tok : String → List String)
    (s : String) (hkeys : (registry.map Prod.fst).Nodup) :
    (sentence_interactions registry tok s).length = sentencePairCount registry tok s := by
  have hmem : ∀ q : String × String,
      q ∈ (allPairs (registry.map Prod.fst)).filter
          (fun p => strLt p.1 p.2 && presentB registry tok p.1 s && presentB registry tok p.2 s) ↔
        q.1 ∈ find_characters_in_window registry (tok s) ∧
          q.2 ∈ find_characters_in_window registry (tok s) ∧ strLt q.1 q.2 = true := by
    intro q
    rw [List.mem_filter, mem_allPairs]
    simp only [Bool.and_eq_true, presentB_iff]
    constructor
    · rintro ⟨_, ⟨hlt, h1⟩, h2⟩
      exact ⟨h1, h2, hlt⟩
    · rintro ⟨h1, h2, hlt⟩
      exact ⟨⟨find_characters_subset_keys h1, find_characters_subset_keys h2⟩, ⟨hlt, h1⟩, h2⟩
  unfold sentence_interactions sentencePairCount
  by_cases hg : 1 < (find_characters_in_window registry (tok s)).length
  · rw [if_pos hg]
    refine List.Perm.length_eq ?_
    refine (List.perm_ext_iff_of_nodup (nodup_sorted_pairs _)
      (List.Nodup.filter _ (nodup_allPairs hkeys))).mpr ?_
    intro q
    rw [mem_sorted_pairs, hmem q]
  · rw [if_neg hg]
    have hempty : (allPairs (registry.map Prod.fst)).filter
        (fun p => strLt p.1 p.2 && presentB registry tok p.1 s && presentB registry tok p.2 s)
        = [] := by
      refine List.eq_nil_iff_forall_not_mem.mpr (fun q hq => ?_)
      obtain ⟨h1, h2, hlt⟩ := (hmem q).mp hq
      exact hg (one_lt_length_of_two_mem h1 h2 (ne_of_strLt hlt))
    rw [hempty]

theorem length_interactionsOfSents (ord : List (String × String) → List (String × String))
    (hord : ∀ l, (ord l).Perm l) (registry : Registry) (tok : String → List String)
    (hkeys : (registry.map Prod.fst).Nodup) :
    ∀ sents : List String,
      (interactionsOfSents ord registry tok sents).length = coOccTotal registry tok sents
  | [] => rfl
  | s :: rest => by
    rw [interactionsOfSents, List.length_append, (hord _).length_eq,
      length_sentence_interactions registry tok s hkeys, coOccTotal,
      length_interactionsOfSents ord hord registry tok hkeys rest]

/-! ### Substring containment (the spec's second detection mode) -/

theorem substrB_nil_pattern : ∀ (l : List Char), substrB [] l = true
  | [] => rfl
  | _ :: _ => by rw [substrB, List.isPrefixOf_nil_left]; rfl

theorem isPrefixOf_append_self : ∀ (p post : List Char), p.isPrefixOf (p ++ post) = true
  | [], _ => List.isPrefixOf_nil_left
  | c :: p, post => by
    rw [List.cons_append, List.isPrefixOf_cons₂]
    simp [isPrefixOf_append_self p post]

theorem substrB_of_middle : ∀ (pre p post : List Char), substrB p (pre ++ p ++ post) = true
  | [], p, post => by
    rw [List.nil_append]
    cases p with
    | nil => exact substrB_nil_pattern post
    | cons c cs =>
      rw [List.cons_append, substrB, ← List.cons_append, isPrefixOf_append_self]
      rfl
  | d :: pre2, p, post => by
    rw [List.cons_append, List.cons_append, substrB, substrB_of_middle pre2 p post]
    simp

theorem substrB_of_mem_window {v : String} {window : List String} (hv : v ∈ window) :
    substrB v.data (window_text window) = true := by
  obtain ⟨w1, w2, rfl⟩ := List.append_of_mem hv
  unfold window_text
  rw [List.map_append, List.map_cons, List.flatten_append, List.flatten_cons,
    ← List.append_assoc]
  exact substrB_of_middle _ _ _

/-! ### Empty aliases -/

theorem any_filter_empty {window : List String} (hw : ("" : String) ∉ window)
    (vars : List String) :
    (vars.filter (fun v => !(v == ""))).any (fun v => decide (v ∈ window))
      = vars.any (fun v => decide (v ∈ window)) := by
  induction vars with
  | nil => rfl
  | cons v vs ihv =>
    by_cases hv : v = ""
    · subst hv
      rw [List.filter_cons_of_neg (by simp), List.any_cons, ihv]
      have : decide (("" : String) ∈ window) = false := decide_eq_false hw
      rw [this, Bool.false_or]
    · rw [List.filter_cons_of_pos (by simp [hv]), List.any_cons, List.any_cons, ihv]

theorem find_characters_strip_empty (registry : Registry) (window : List String)
    (hw : ("" : String) ∉ window) :
    find_characters_in_window (strip_empty registry) window
      = find_characters_in_window registry window := by
  unfold find_characters_in_window strip_empty
  induction registry with
  | nil => rfl
  | cons cv reg ih =>
    rw [List.map_cons, List.filter_cons, List.filter_cons]
    rw [show ((cv.1, cv.2.filter (fun v => !(v == ""))) : String × List String).2
        = cv.2.filter (fun v => !(v == "")) from rfl]
    rw [any_filter_empty hw cv.2]
    by_cases hc : cv.2.any (fun v => decide (v ∈ window)) = true
    · rw [if_pos hc, if_pos hc, List.map_cons, List.map_cons, ih]
    · rw [if_neg hc, if_neg hc, ih]

/-! ### Claim theorems -/

/-- C1: for every text and registry, the table entry for the
canonicalized pair `(a, b)` carries weight `w` exactly when `w` is the
number of sentences in which both `a` and `b` were judged present and
`w` is positive: one increment per qualifying sentence, never per raw
mention, and a pair whose sentence count is 0 never appears. -/
theorem c1_pair_weight_eq_sentence_count
    (ord : List (String × String) → List (String × String))
    (hord : ∀ l, (ord l).Perm l) (registry : Registry) (tok : String → List String)
    (text : String) (a b : String) (hab : strLt a b = true) (w : Nat) :
    ((a, b), w) ∈ interaction_counts (interactions ord registry tok text) ↔
      w = sentencesBothPresent registry tok text a b ∧ 0 < w := by
  have hcount : (interactions ord registry tok text).count (a, b)
      = sentencesBothPresent registry tok text a b := by
    rw [interactions,
      count_interactionsOfSents ord hord registry tok (split_sentences text) (a, b)]
    unfold sentencesBothPresent
    refine List.countP_congr (fun s _ => ?_)
    simp [hab]
  rw [mem_interaction_counts]
  constructor
  · rintro ⟨hm, rfl⟩
    exact ⟨hcount, List.count_pos_iff.mpr hm⟩
  · rintro ⟨rfl, hpos⟩
    rw [← hcount] at hpos
    exact ⟨List.count_pos_iff.mp hpos, hcount.symm⟩

/-- Witness for C1: in `"ab。ac"` with single-character aliases, the pair
`(a, b)` is emitted with weight 1, the number of sentences containing
both. -/
theorem c1_witness :
    (("a", "b"), 1) ∈ interaction_counts (interactions id regABC tokChars "ab。ac") :=
  (c1_pair_weight_eq_sentence_count id (fun l => List.Perm.refl l) regABC tokChars
    "ab。ac" "a" "b" (by decide) 1).mpr (by decide)

/-- C2: within one sentence, each canonical pair of distinct present
characters is recorded exactly once (count 1, and 0 for any other pair),
the recorded pair set is the same (up to permutation) for any iteration
order of the present-character set, and three co-occurring characters
yield exactly 3 pair increments. -/
theorem c2_pair_increments (present present' : List String) (hperm : present.Perm present')
    (q : String × String) :
    ((sorted_pairs present).count q
        = if q.1 ∈ present ∧ q.2 ∈ present ∧ strLt q.1 q.2 = true then 1 else 0)
      ∧ (sorted_pairs present).Perm (sorted_pairs present')
      ∧ (sorted_pairs ["a", "b", "c"]).length = 3 := by
  refine ⟨count_sorted_pairs present q, ?_, by decide⟩
  refine (List.perm_ext_iff_of_nodup (nodup_sorted_pairs present)
    (nodup_sorted_pairs present')).mpr ?_
  intro p
  rw [mem_sorted_pairs, mem_sorted_pairs]
  constructor
  · rintro ⟨h1, h2, h3⟩
    exact ⟨hperm.mem_iff.mp h1, hperm.mem_iff.mp h2, h3⟩
  · rintro ⟨h1, h2, h3⟩
    exact ⟨hperm.mem_iff.mpr h1, hperm.mem_iff.mpr h2, h3⟩

/-- Witness for C2: the pair sets built from the two iteration orders of
`{a, b}` are permutations of each other. -/
theorem c2_witness : (sorted_pairs ["a", "b"]).Perm (sorted_pairs ["b", "a"]) :=
  (c2_pair_increments ["a", "b"] ["b", "a"] (List.Perm.swap "b" "a" []) ("a", "b")).2.1

/-- C3: the total weight of the emitted table equals the number of
(sentence, unordered-pair) co-occurrences of the whole text, and for any
partition of the sentence list into two halves the per-pair counts of
the two independently processed halves sum to the whole-text counts. -/
theorem c3_additivity (ord : List (String × String) → List (String × String))
    (hord : ∀ l, (ord l).Perm l) (registry : Registry) (tok : String → List String)
    (hkeys : (registry.map Prod.fst).Nodup) (text : String) (l1 l2 : List String)
    (hsplit : split_sentences text = l1 ++ l2) (q : String × String) :
    totalWeight (interaction_counts (interactions ord registry tok text))
        = coOccTotal registry tok (split_sentences text)
      ∧ (interactions ord registry tok text).count q
          = (interactionsOfSents ord registry tok l1).count q
            + (interactionsOfSents ord registry tok l2).count q := by
  constructor
  · rw [totalWeight_interaction_counts, interactions,
      length_interactionsOfSents ord hord registry tok hkeys (split_sentences text)]
  · rw [interactions, hsplit, count_interactionsOfSents ord hord registry tok (l1 ++ l2) q,
      count_interactionsOfSents ord hord registry tok l1 q,
      count_interactionsOfSents ord hord registry tok l2 q, List.countP_append]

/-- Witness for C3: on `"ab。ac"`, total weight 2 equals the two
(sentence, pair) co-occurrences, via the halves `["ab"]` and `["ac"]`. -/
theorem c3_witness :
    totalWeight (interaction_counts (interactions id regABC tokChars "ab。ac"))
      = coOccTotal regABC tokChars (split_sentences "ab。ac") :=
  (c3_additivity id (fun l => List.Perm.refl l) regABC tokChars (by decide) "ab。ac"
    ["ab"] ["ac"] (by decide) ("a", "b")).1

/-- C4 counterexample: the two alias-detection modes are not equivalent:
for the alias `"ab"` and the one-token window `["xab"]`, membership
against the token set finds no character while substring containment
against the raw window text finds it. -/
theorem c4_modes_differ :
    find_characters_in_window regAB ["xab"]
      ≠ find_characters_in_raw regAB (window_text ["xab"]) := by
  decide

/-- C4 amended: token-membership detection refines substring detection:
any character judged present against the window's token set is judged
present by raw substring containment over the window text; the converse
fails (see the counterexample), so the modes are not equivalent. -/
theorem c4_membership_refines_substring (registry : Registry) (window : List String)
    (c : String) (h : c ∈ find_characters_in_window registry window) :
    c ∈ find_characters_in_raw registry (window_text window) := by
  obtain ⟨vars, hmem, v, hv, hvw⟩ := mem_find_characters.mp h
  unfold find_characters_in_raw
  refine List.mem_map.mpr ⟨(c, vars), List.mem_filter.mpr ⟨hmem, ?_⟩, rfl⟩
  rw [List.any_eq_true]
  exact ⟨v, hv, substrB_of_mem_window hvw⟩

/-- Witness for C4 (amended direction) at a concrete window. -/
theorem c4_witness :
    ("a" : String) ∈ find_characters_in_raw regABC (window_text ["a", "b"]) :=
  c4_membership_refines_substring regABC ["a", "b"] "a" (by decide)

/-- C5 counterexample: two runs on the same text and registry whose
set-iteration orders differ (both are orders of the same per-sentence
pair set) emit the table records in different orders, refuting
order-stability across process restarts. -/
theorem c5_order_not_stable :
    ¬ (∀ ord1 ord2 : List (String × String) → List (String × String),
        (∀ l, (ord1 l).Perm l) → (∀ l, (ord2 l).Perm l) →
        interaction_counts (interactions ord1 regABC tokChars "abc")
          = interaction_counts (interactions ord2 regABC tokChars "abc")) := by
  intro h
  have heq := h id List.reverse (fun l => List.Perm.refl l) (fun l => List.reverse_perm l)
  exact absurd heq (by decide)

/-- C5 amended: two runs on the same text and registry produce the same
records up to order (same pair-weight entries), whatever the
set-iteration orders of the two runs. -/
theorem c5_multiset_deterministic
    (ord1 ord2 : List (String × String) → List (String × String))
    (hord1 : ∀ l, (ord1 l).Perm l) (hord2 : ∀ l, (ord2 l).Perm l)
    (registry : Registry) (tok : String → List String) (text : String)
    (q : String × String) (w : Nat) :
    (q, w) ∈ interaction_counts (interactions ord1 registry tok text) ↔
      (q, w) ∈ interaction_counts (interactions ord2 registry tok text) := by
  have hcnt : (interactions ord1 registry tok text).count q
      = (interactions ord2 registry tok text).count q := by
    rw [interactions, interactions,
      count_interactionsOfSents ord1 hord1 registry tok (split_sentences text) q,
      count_interactionsOfSents ord2 hord2 registry tok (split_sentences text) q]
  rw [mem_interaction_counts, mem_interaction_counts, ← List.count_pos_iff,
    ← List.count_pos_iff, hcnt]

/-- Witness for C5 (amended): the entry `((a, b), 1)` is present in both
the identity-order run and the reversed-order run on `"abc"`. -/
theorem c5_witness :
    (("a", "b"), 1) ∈ interaction_counts (interactions id regABC tokChars "abc") ↔
      (("a", "b"), 1) ∈ interaction_counts (interactions List.reverse regABC tokChars "abc") :=
  c5_multiset_deterministic id List.reverse (fun l => List.Perm.refl l)
    (fun l => List.reverse_perm l) regABC tokChars "abc" ("a", "b") 1

/-- C6: every emitted record has distinct Source and Target and an
integer weight at least 1. -/
theorem c6_schema (ord : List (String × String) → List (String × String))
    (hord : ∀ l, (ord l).Perm l) (registry : Registry) (tok : String → List String)
    (text : String) (p : String × String) (w : Nat)
    (hmem : (p, w) ∈ interaction_counts (interactions ord registry tok text)) :
    p.1 ≠ p.2 ∧ 1 ≤ w := by
  obtain ⟨hm, rfl⟩ := mem_interaction_counts.mp hmem
  have hpos : 0 < (interactions ord registry tok text).count p := List.count_pos_iff.mpr hm
  rw [interactions, count_interactionsOfSents ord hord registry tok _ p] at hpos
  obtain ⟨s, _, hs⟩ := List.countP_pos_iff.mp hpos
  simp only [Bool.and_eq_true] at hs
  exact ⟨ne_of_strLt hs.2, List.count_pos_iff.mpr hm⟩

/-- Witness for C6 on a concrete emitted record. -/
theorem c6_witness : ("a" : String) ≠ "b" ∧ 1 ≤ 1 :=
  c6_schema id (fun l => List.Perm.refl l) regABC tokChars "ab。ac" ("a", "b") 1 (by decide)

/-- C7: sentence splitting cuts at every occurrence of any character of
the delimiter class: no piece contains a delimiter, interleaving the
pieces with the consumed delimiter occurrences (in order) reconstructs
the text exactly (so the pieces are non-overlapping and in text order),
and there is one more piece than delimiter occurrences. -/
theorem c7_sentence_split (l : List Char) :
    (∀ s ∈ splitChars l, ∀ c ∈ s, isDelim c = false)
      ∧ interleave (splitChars l) (l.filter isDelim) = l
      ∧ (splitChars l).length = (l.filter isDelim).length + 1 :=
  ⟨splitChars_no_delim l, interleave_splitChars l, length_splitChars l⟩

/-- Witness for C7 on the text `"ab。ac"`. -/
theorem c7_witness :
    interleave (splitChars ("ab。ac".data)) (("ab。ac".data).filter isDelim) = "ab。ac".data
      ∧ (splitChars ("ab。ac".data)).length = (("ab。ac".data).filter isDelim).length + 1 :=
  ⟨(c7_sentence_split "ab。ac".data).2.1, (c7_sentence_split "ab。ac".data).2.2⟩

theorem interactionsOfSents_nil_registry
    (ord : List (String × String) → List (String × String))
    (hord : ∀ l, (ord l).Perm l) (tok : String → List String) :
    ∀ sents : List String, interactionsOfSents ord [] tok sents = []
  | [] => rfl
  | s :: rest => by
    rw [interactionsOfSents]
    have h1 : sentence_interactions [] tok s = [] := rfl
    rw [h1, (hord []).eq_nil, List.nil_append]
    exact interactionsOfSents_nil_registry ord hord tok rest

/-- C8: with an empty registry the extractor succeeds and emits an empty
table. -/
theorem c8_empty_registry (ord : List (String × String) → List (String × String))
    (hord : ∀ l, (ord l).Perm l) (tok : String → List String) (text : String) :
    interaction_counts (interactions ord [] tok text) = [] := by
  rw [interactions, interactionsOfSents_nil_registry ord hord tok]
  rfl

/-- Witness for C8 on a concrete text. -/
theorem c8_witness : interaction_counts (interactions id [] tokChars "ab。ac") = [] :=
  c8_empty_registry id (fun l => List.Perm.refl l) tokChars "ab。ac"

/-- C9: an empty alias string never causes a character to be judged
present: on any window without an empty token (tokenizers emit no empty
tokens), deleting every empty alias from the registry leaves the
present-character set unchanged. -/
theorem c9_empty_alias_never_matches (registry : Registry) (window : List String)
    (hw : ("" : String) ∉ window) :
    find_characters_in_window (strip_empty registry) window
      = find_characters_in_window registry window :=
  find_characters_strip_empty registry window hw

/-- Witness for C9 with a registry containing an empty alias. -/
theorem c9_witness :
    find_characters_in_window (strip_empty regE) ["a"]
      = find_characters_in_window regE ["a"] :=
  c9_empty_alias_never_matches regE ["a"] (by decide)

/-- C10: presence is exact token membership: a character is judged
present iff some alias of its registry entry equals some token of the
window (an alias occurring only inside a token is not detected), and for
a registry with distinct canonical ids the present set holds each
character at most once however many aliases match. -/
theorem c10_presence_token_membership (registry : Registry) (window : List String)
    (hkeys : (registry.map Prod.fst).Nodup) (c : String) :
    (c ∈ find_characters_in_window registry window ↔
        ∃ vars, (c, vars) ∈ registry ∧ ∃ v, v ∈ vars ∧ v ∈ window)
      ∧ (find_characters_in_window registry window).Nodup :=
  ⟨mem_find_characters, nodup_find_characters hkeys⟩

/-- Witness for C10: a doubly-mentioned character is still present (and
the present set is duplicate-free). -/
theorem c10_witness :
    ("a" : String) ∈ find_characters_in_window regABC ["a", "a"] :=
  (c10_presence_token_membership regABC ["a", "a"] (by decide) "a").1.mpr
    ⟨["a"], by decide, "a", by decide, by decide⟩
